import Mathlib

/-!
Verification of the image-cropper geometry-constraint engine and history
state machine: shallow embeddings of the source functions
(computeCropSize, clampCropDims, findMaxRotation, clampOffset, useHistory)
and theorems settling the specification claims about them.
-/

namespace Cropper

/-- Size record, as in ImageCropper.types. -/
structure Size where
  width : ℝ
  height : ℝ

/-- Point record, as in ImageCropper.types. -/
structure Point where
  x : ℝ
  y : ℝ

/-! ## History state machine (useHistory.ts) -/

/-- The history record held by the useHistory hook. -/
structure HistoryState (T : Type) where
  past : List T
  present : T
  future : List T

/-- Full hook state: the history record plus the staged (live display) value. -/
structure HookState (T : Type) where
  hist : HistoryState T
  staged : T

variable {T : Type}

/-- Initial hook state, as produced by useHistory(initialState). -/
def initHistory (v : T) : HookState T :=
  ⟨⟨[], v, []⟩, v⟩

/-- stage: set the staged value without touching history. -/
def stage (s : HookState T) (v : T) : HookState T :=
  ⟨s.hist, v⟩

/-- commit: commit the provided value (or the staged value when none is
provided).  An explicit value is also staged.  If the commit value is
deep-equal to the present value the history record is left unchanged. -/
def commit [DecidableEq T] (s : HookState T) (v? : Option T) : HookState T :=
  if v?.getD s.staged = s.hist.present then ⟨s.hist, v?.getD s.staged⟩
  else ⟨⟨s.hist.past ++ [s.hist.present], v?.getD s.staged, []⟩, v?.getD s.staged⟩

/-- undo: no-op when past is empty; otherwise pop the last past entry into
present, push the old present onto the front of future, and sync staged. -/
def undo (s : HookState T) : HookState T :=
  match s.hist.past.getLast? with
  | none => s
  | some prev =>
      ⟨⟨s.hist.past.dropLast, prev, s.hist.present :: s.hist.future⟩, prev⟩

/-- redo: no-op when future is empty; otherwise shift the first future entry
into present, push the old present onto the end of past, and sync staged. -/
def redo (s : HookState T) : HookState T :=
  match s.hist.future with
  | [] => s
  | next :: rest =>
      ⟨⟨s.hist.past ++ [s.hist.present], next, rest⟩, next⟩

/-- reset: clear history and set both present and staged to the given value. -/
def reset (_s : HookState T) (v : T) : HookState T :=
  ⟨⟨[], v, []⟩, v⟩

/-- canUndo flag exposed by the hook. -/
def canUndo (s : HookState T) : Bool :=
  !s.hist.past.isEmpty

/-- canRedo flag exposed by the hook. -/
def canRedo (s : HookState T) : Bool :=
  !s.hist.future.isEmpty

/-- The operations a consumer can perform on the hook. -/
inductive HOp (T : Type) where
  | stage (v : T)
  | commit (v : Option T)
  | undo
  | redo
  | reset (v : T)

/-- Apply one operation to the hook state. -/
def applyOp [DecidableEq T] (s : HookState T) : HOp T → HookState T
  | .stage v => stage s v
  | .commit v => commit s v
  | .undo => undo s
  | .redo => redo s
  | .reset v => reset s v

/-- Run a list of operations from a state. -/
def runOps [DecidableEq T] (s : HookState T) (ops : List (HOp T)) : HookState T :=
  ops.foldl applyOp s

/-- The linear chain of history entries: past, then present, then future. -/
def chainOf (s : HookState T) : List T :=
  s.hist.past ++ s.hist.present :: s.hist.future

/-- No two adjacent entries of the chain are equal. -/
def AdjacentDistinct (s : HookState T) : Prop :=
  List.Chain' (fun a b => a ≠ b) (chainOf s)

/-! ## Debounced commit wrapper (modelled from the spec) -/

/-- Modelled from the spec: the consumer-owned debounce wrapper around the
history hook (section on the history and commit state machine and the
concurrency model).  The component that owns the 500 ms commit timer ships
only in the built distribution and is not under src, so its timer protocol
is modelled here: the state couples the hook state with a flag recording
whether a debounce timer is pending. -/
structure DebouncedState (T : Type) where
  hook : HookState T
  pending : Bool

/-- Modelled from the spec: a stage-triggering interaction event stages the
value and restarts the debounce timer. -/
def dStage [DecidableEq T] (s : DebouncedState T) (v : T) : DebouncedState T :=
  ⟨stage s.hook v, true⟩

/-- Modelled from the spec: the timer firing uninterrupted commits the staged
value and clears the pending timer; with no pending timer nothing happens. -/
def dTimerFire [DecidableEq T] (s : DebouncedState T) : DebouncedState T :=
  if s.pending then ⟨commit s.hook none, false⟩ else s

/-- Modelled from the spec: undo first cancels any pending timer, then
performs the hook undo. -/
def dUndo [DecidableEq T] (s : DebouncedState T) : DebouncedState T :=
  ⟨undo s.hook, false⟩

/-- Modelled from the spec: redo first cancels any pending timer, then
performs the hook redo. -/
def dRedo [DecidableEq T] (s : DebouncedState T) : DebouncedState T :=
  ⟨redo s.hook, false⟩

/-! ## Geometry (computeCropSize.ts, clampCropDims.ts, findMaxRotation.ts,
clampOffset.ts) -/

/-- The epsilon guard used by the geometry code. -/
def EPS : ℝ := 1e-9

/-- computeCropSize: the largest centered aspect-preserving rectangle
inscribed in the image rotated by the given angle. -/
noncomputable def computeCropSize (W H rotationDeg : ℝ) : Size :=
  if W = 0 ∨ H = 0 then ⟨0, 0⟩
  else
    let theta := |rotationDeg| * (Real.pi / 180)
    if theta < EPS then ⟨W, H⟩
    else
      let cosT := Real.cos theta
      let sinT := Real.sin theta
      let s := min (W / (W * cosT + H * sinT)) (H / (W * sinT + H * cosT))
      ⟨s * W, s * H⟩

/-- Fold step for the running Math.min against an initial Infinity: a value
of none stands for the untouched Infinity. -/
def updMin (o : Option ℝ) (x : ℝ) : Option ℝ :=
  match o with
  | none => some x
  | some m => some (min m x)

/-- Math.min of a finite value against a possibly-Infinity bound. -/
def capOpt (x : ℝ) (o : Option ℝ) : ℝ :=
  match o with
  | none => x
  | some m => min x m

/-- Comparison bound < x where the bound may still be Infinity (none), in
which case the comparison is false. -/
noncomputable def belowOpt (o : Option ℝ) (x : ℝ) : Bool :=
  match o with
  | none => false
  | some m => decide (m < x)

/-- Shared tail of clampCropDims: recompute the maximal feasible half-height
for the settled half-width and clamp the current half-height into range. -/
noncomputable def clampFinish (hiW hiH cosT sinT mhh hw hh : ℝ) : Size :=
  let b1 : Option ℝ := if EPS < sinT then updMin none ((hiW - hw * cosT) / sinT) else none
  let maxHH : Option ℝ := if EPS < cosT then updMin b1 ((hiH - hw * sinT) / cosT) else b1
  ⟨hw * 2, max (capOpt hh maxHH) mhh * 2⟩

/-- clampCropDims: clamp desired crop dimensions to the largest feasible
centered crop, respecting the minimum dimensions. -/
noncomputable def clampCropDims (cropW cropH imgW imgH rotationDeg minW minH : ℝ) : Size :=
  let theta := |rotationDeg| * (Real.pi / 180)
  let cosT := Real.cos theta
  let sinT := Real.sin theta
  let hiW := imgW / 2
  let hiH := imgH / 2
  let mhw := minW / 2
  let mhh := minH / 2
  let hw0 := max (cropW / 2) mhw
  let hh0 := max (cropH / 2) mhh
  if theta < EPS then ⟨min hw0 hiW * 2, min hh0 hiH * 2⟩
  else
    let b1 : Option ℝ := if EPS < cosT then updMin none ((hiW - hh0 * sinT) / cosT) else none
    let maxHW : Option ℝ := if EPS < sinT then updMin b1 ((hiH - hh0 * cosT) / sinT) else b1
    if belowOpt maxHW mhw then
      let b2 : Option ℝ := if EPS < sinT then updMin none ((hiW - mhw * cosT) / sinT) else none
      let maxHH2 : Option ℝ := if EPS < cosT then updMin b2 ((hiH - mhw * sinT) / cosT) else b2
      clampFinish hiW hiH cosT sinT mhh mhw (max (capOpt hh0 maxHH2) mhh)
    else
      clampFinish hiW hiH cosT sinT mhh (capOpt hw0 maxHW) hh0

/-- The nonzero-rotation branch of clampCropDims with both trigonometric
guards active, written over the half-extent quantities: used to state its
evaluation. -/
noncomputable def clampNZ (hiW hiH c s mhw mhh hw0 hh0 : ℝ) : Size :=
  let X1 := (hiW - hh0 * s) / c
  let X2 := (hiH - hh0 * c) / s
  if min X1 X2 < mhw then
    let Z1 := (hiW - mhw * c) / s
    let Z2 := (hiH - mhw * s) / c
    let hh1 := max (min hh0 (min Z1 Z2)) mhh
    ⟨mhw * 2, max (min hh1 (min Z1 Z2)) mhh * 2⟩
  else
    let hw1 := min hw0 (min X1 X2)
    let Y1 := (hiW - hw1 * c) / s
    let Y2 := (hiH - hw1 * s) / c
    ⟨hw1 * 2, max (min hh0 (min Y1 Y2)) mhh * 2⟩

/-- One binary-search step of findMaxRotation: probe the midpoint, widen lo
on feasibility and narrow hi on infeasibility. -/
noncomputable def fmrStep (imgW imgH : ℝ) (customCrop : Option Size) (minW minH : ℝ)
    (s : ℝ × ℝ) : ℝ × ℝ :=
  let mid := (s.1 + s.2) / 2
  let c :=
    match customCrop with
    | some cc => clampCropDims cc.width cc.height imgW imgH mid minW minH
    | none => computeCropSize imgW imgH mid
  if minW ≤ c.width ∧ minH ≤ c.height then (mid, s.2) else (s.1, mid)

/-- Math.round: round half up to the nearest integer. -/
noncomputable def jsRound (x : ℝ) : ℝ :=
  (⌊x + 1 / 2⌋ : ℤ)

/-- findMaxRotation: 50 binary-search iterations on the rotation angle over
the interval from 0 to 45, result rounded to one decimal. -/
noncomputable def findMaxRotation (imgW imgH : ℝ) (customCrop : Option Size)
    (minW minH : ℝ) : ℝ :=
  let final := (fmrStep imgW imgH customCrop minW minH)^[50] (0, 45)
  jsRound (final.1 * 10) / 10

/-- One corner check of clampOffset: test the rotated corner against both
slabs and push the offset back by the signed excess.  The second component
records whether any correction fired. -/
noncomputable def cornerStep (cosT sinT hiW hiH : ℝ) (d : ℝ × ℝ) (st : (ℝ × ℝ) × Bool) :
    (ℝ × ℝ) × Bool :=
  let p := st.1
  let px := p.1 + d.1
  let py := p.2 + d.2
  let u := px * cosT + py * sinT
  let v := -px * sinT + py * cosT
  let s1 :=
    if hiW + 0.5 < |u| then
      let excess := if 0 < u then u - hiW else u + hiW
      ((p.1 - excess * cosT, p.2 - excess * sinT), false)
    else (p, st.2)
  if hiH + 0.5 < |v| then
    let excess := if 0 < v then v - hiH else v + hiH
    ((s1.1.1 + excess * sinT, s1.1.2 - excess * cosT), false)
  else s1

/-- One full pass of clampOffset over the four corners, in source order. -/
noncomputable def passOnce (cosT sinT hiW hiH hw hh : ℝ) (p : ℝ × ℝ) : (ℝ × ℝ) × Bool :=
  cornerStep cosT sinT hiW hiH (hw, hh)
    (cornerStep cosT sinT hiW hiH (-hw, hh)
      (cornerStep cosT sinT hiW hiH (hw, -hh)
        (cornerStep cosT sinT hiW hiH (-hw, -hh) (p, true))))

/-- The clampOffset iteration loop: run up to the given number of passes,
stopping early when a pass fires no correction. -/
noncomputable def clampLoop (cosT sinT hiW hiH hw hh : ℝ) : ℕ → ℝ × ℝ → ℝ × ℝ
  | 0, p => p
  | n + 1, p =>
      let r := passOnce cosT sinT hiW hiH hw hh p
      if r.2 then r.1 else clampLoop cosT sinT hiW hiH hw hh n r.1

/-- clampOffset: iteratively nudge the crop offset until all four corners
satisfy containment within the half-unit tolerance, with a budget of eight
iterations. -/
noncomputable def clampOffset (ox oy cropW cropH imgW imgH rotationDeg : ℝ) : Point :=
  let theta := rotationDeg * (Real.pi / 180)
  let cosT := Real.cos theta
  let sinT := Real.sin theta
  let hiW := imgW / 2
  let hiH := imgH / 2
  let hw := cropW / 2
  let hh := cropH / 2
  let r := clampLoop cosT sinT hiW hiH hw hh 8 (ox, oy)
  ⟨r.1, r.2⟩

/-- The containment predicate of the spec for a crop of the given size
centered at the image center: each of the four rotated corners lies inside
the upright image half-extents. -/
noncomputable def containedCentered (imgW imgH rotationDeg w h : ℝ) : Prop :=
  let theta := |rotationDeg| * (Real.pi / 180)
  let c := Real.cos theta
  let s := Real.sin theta
  let hiW := imgW / 2
  let hiH := imgH / 2
  let a := w / 2
  let b := h / 2
  (|(-a) * c + (-b) * s| ≤ hiW ∧ |(-(-a)) * s + (-b) * c| ≤ hiH) ∧
  (|a * c + (-b) * s| ≤ hiW ∧ |(-a) * s + (-b) * c| ≤ hiH) ∧
  (|(-a) * c + b * s| ≤ hiW ∧ |(-(-a)) * s + b * c| ≤ hiH) ∧
  (|a * c + b * s| ≤ hiW ∧ |(-a) * s + b * c| ≤ hiH)

/-! ## Helper lemmas -/

theorem getLast?_decomp {α : Type} (l : List α) (a : α) (t : List α)
    (h : l.getLast? = some a) : l.dropLast ++ a :: t = l ++ t := by
  induction l with
  | nil => simp at h
  | cons x xs ih =>
      cases xs with
      | nil =>
          simp only [List.getLast?_singleton, Option.some.injEq] at h
          simp [h]
      | cons y ys =>
          rw [List.getLast?_cons_cons] at h
          have := ih h
          simpa using this

theorem chainOf_stage {T : Type} (s : HookState T) (v : T) :
    chainOf (stage s v) = chainOf s := rfl

theorem chainOf_undo {T : Type} (s : HookState T) :
    chainOf (undo s) = chainOf s := by
  unfold undo
  cases h : s.hist.past.getLast? with
  | none => rfl
  | some prev =>
      simp only [chainOf]
      exact getLast?_decomp _ _ _ h

theorem chainOf_redo {T : Type} (s : HookState T) :
    chainOf (redo s) = chainOf s := by
  unfold redo
  cases h : s.hist.future with
  | nil => rfl
  | cons next rest => simp [chainOf, h]

theorem adjacentDistinct_commit {T : Type} [DecidableEq T] (s : HookState T)
    (v? : Option T) (hs : AdjacentDistinct s) : AdjacentDistinct (commit s v?) := by
  unfold commit
  by_cases h : v?.getD s.staged = s.hist.present
  · rw [if_pos h]; exact hs
  · rw [if_neg h]
    unfold AdjacentDistinct chainOf at hs ⊢
    simp only [List.append_assoc, List.cons_append, List.nil_append]
    rw [List.chain'_append] at hs ⊢
    obtain ⟨h1, h2, h3⟩ := hs
    refine ⟨h1, ?_, ?_⟩
    · simp only [List.chain'_cons, List.chain'_singleton, and_true]
      exact fun hp => h (hp ▸ rfl)
    · intro x hx y hy
      simp only [List.head?_cons, Option.mem_def, Option.some.injEq] at hy
      subst hy
      exact h3 x hx s.hist.present (by simp)

theorem adjacentDistinct_step {T : Type} [DecidableEq T] (s : HookState T) (op : HOp T)
    (hs : AdjacentDistinct s) : AdjacentDistinct (applyOp s op) := by
  cases op with
  | stage v => exact hs
  | commit v => exact adjacentDistinct_commit s v hs
  | undo =>
      show AdjacentDistinct (undo s)
      unfold AdjacentDistinct; rw [chainOf_undo]; exact hs
  | redo =>
      show AdjacentDistinct (redo s)
      unfold AdjacentDistinct; rw [chainOf_redo]; exact hs
  | reset v => simp [AdjacentDistinct, chainOf, reset, applyOp]

theorem adjacentDistinct_runOps {T : Type} [DecidableEq T] (ops : List (HOp T)) :
    ∀ s : HookState T, AdjacentDistinct s → AdjacentDistinct (runOps s ops) := by
  induction ops with
  | nil => intro s hs; exact hs
  | cons op rest ih =>
      intro s hs
      exact ih (applyOp s op) (adjacentDistinct_step s op hs)

/-! ## Claim theorems: history machine -/

/-- C5: calling commit with a value deep-equal to the current present leaves
the history record unchanged; in particular canUndo does not change. -/
theorem commit_equal_present_noop {T : Type} [DecidableEq T]
    (s : HookState T) (v? : Option T) (h : v?.getD s.staged = s.hist.present) :
    (commit s v?).hist = s.hist ∧ canUndo (commit s v?) = canUndo s := by
  have hc : commit s v? = ⟨s.hist, v?.getD s.staged⟩ := by
    unfold commit; rw [if_pos h]
  rw [hc]
  exact ⟨rfl, rfl⟩

/-- Witness for C5 at a concrete state. -/
theorem commit_equal_present_noop_witness :
    (commit (initHistory (0 : ℕ)) (some 0)).hist = (initHistory (0 : ℕ)).hist ∧
    canUndo (commit (initHistory (0 : ℕ)) (some 0)) = canUndo (initHistory (0 : ℕ)) :=
  commit_equal_present_noop (initHistory 0) (some 0) rfl

/-- C6 counterexample: from initial present 0, commit 1 then commit 2 then
undo restores present 1 with canRedo true, but a subsequent commit of the
value 1 (deep-equal to the restored present) is a history no-op, so canRedo
stays true and the future stays nonempty, refuting the claim that any
subsequent commit clears the redo stack. -/
theorem commit_after_undo_equal_value_counterexample :
    ((1 : ℕ) ≠ (initHistory (0 : ℕ)).hist.present) ∧ ((2 : ℕ) ≠ 1) ∧
    (undo (commit (commit (initHistory (0 : ℕ)) (some 1)) (some 2))).hist.present = 1 ∧
    canRedo (undo (commit (commit (initHistory (0 : ℕ)) (some 1)) (some 2))) = true ∧
    ¬ (canRedo (commit (undo (commit (commit (initHistory (0 : ℕ)) (some 1)) (some 2)))
        (some 1)) = false ∧
       (commit (undo (commit (commit (initHistory (0 : ℕ)) (some 1)) (some 2)))
        (some 1)).hist.future = []) := by
  decide

/-- C6 amended: commit A, commit B, undo yields present A and canRedo true;
a subsequent commit of a value C distinct from A makes canRedo false and
empties the future. -/
theorem commit_commit_undo_commit {T : Type} [DecidableEq T]
    (s : HookState T) (A B C : T) (hA : A ≠ s.hist.present) (hB : B ≠ A) (hC : C ≠ A) :
    (undo (commit (commit s (some A)) (some B))).hist.present = A ∧
    canRedo (undo (commit (commit s (some A)) (some B))) = true ∧
    canRedo (commit (undo (commit (commit s (some A)) (some B))) (some C)) = false ∧
    (commit (undo (commit (commit s (some A)) (some B))) (some C)).hist.future = [] := by
  have h1 : commit s (some A) = ⟨⟨s.hist.past ++ [s.hist.present], A, []⟩, A⟩ := by
    unfold commit
    rw [if_neg (show ¬((some A).getD s.staged = s.hist.present) from hA)]
    rfl
  have h2 : commit (⟨⟨s.hist.past ++ [s.hist.present], A, []⟩, A⟩ : HookState T) (some B) =
      ⟨⟨(s.hist.past ++ [s.hist.present]) ++ [A], B, []⟩, B⟩ := by
    unfold commit
    rw [if_neg (show ¬((some B).getD A = A) from hB)]
    rfl
  have h3 : undo (⟨⟨(s.hist.past ++ [s.hist.present]) ++ [A], B, []⟩, B⟩ : HookState T) =
      ⟨⟨s.hist.past ++ [s.hist.present], A, [B]⟩, A⟩ := by
    unfold undo
    simp [List.getLast?_concat, List.dropLast_concat]
  have h4 : commit (⟨⟨s.hist.past ++ [s.hist.present], A, [B]⟩, A⟩ : HookState T) (some C) =
      ⟨⟨(s.hist.past ++ [s.hist.present]) ++ [A], C, []⟩, C⟩ := by
    unfold commit
    rw [if_neg (show ¬((some C).getD A = A) from hC)]
    rfl
  rw [h1, h2, h3, h4]
  exact ⟨rfl, rfl, rfl, rfl⟩

/-- Witness for the amended C6 at concrete values. -/
theorem commit_commit_undo_commit_witness :
    (undo (commit (commit (initHistory (0 : ℕ)) (some 1)) (some 2))).hist.present = 1 ∧
    canRedo (undo (commit (commit (initHistory (0 : ℕ)) (some 1)) (some 2))) = true ∧
    canRedo (commit (undo (commit (commit (initHistory (0 : ℕ)) (some 1)) (some 2)))
      (some 3)) = false ∧
    (commit (undo (commit (commit (initHistory (0 : ℕ)) (some 1)) (some 2)))
      (some 3)).hist.future = [] :=
  commit_commit_undo_commit (initHistory 0) 1 2 3 (by decide) (by decide) (by decide)

/-- C7: in every state reachable from an initial state by stage, commit,
undo, redo and reset operations, no two adjacent entries of the chain
past, present, future are equal. -/
theorem reachable_adjacent_distinct {T : Type} [DecidableEq T] (v0 : T)
    (ops : List (HOp T)) : AdjacentDistinct (runOps (initHistory v0) ops) := by
  apply adjacentDistinct_runOps
  simp [AdjacentDistinct, chainOf, initHistory]

/-- C8: undo and redo cancel any pending debounce timer: after either, no
timer is pending and a timer firing is a no-op, so a stale deferred commit
cannot overwrite the restored state. -/
theorem undo_redo_cancel_pending_timer {T : Type} [DecidableEq T] (s : DebouncedState T) :
    (dUndo s).pending = false ∧ dTimerFire (dUndo s) = dUndo s ∧
    (dRedo s).pending = false ∧ dTimerFire (dRedo s) = dRedo s := by
  refine ⟨rfl, ?_, rfl, ?_⟩ <;> simp [dTimerFire, dUndo, dRedo]

/-- C10: commit with an explicit value always stages that value, even when
the value is deep-equal to present and no history entry is created. -/
theorem commit_explicit_sets_staged {T : Type} [DecidableEq T]
    (s : HookState T) (v : T) : (commit s (some v)).staged = v := by
  unfold commit
  split <;> rfl

/-! ## Geometry helper lemmas -/

theorem EPS_pos : (0 : ℝ) < EPS := by norm_num [EPS]

theorem le_capOpt (x m : ℝ) (o : Option ℝ) (hx : m ≤ x) (ho : belowOpt o m = false) :
    m ≤ capOpt x o := by
  cases o with
  | none => exact hx
  | some b =>
      simp only [belowOpt, decide_eq_false_iff_not, not_lt] at ho
      exact le_min hx ho

theorem clampFinish_width (hiW hiH cosT sinT mhh hw hh : ℝ) :
    (clampFinish hiW hiH cosT sinT mhh hw hh).width = hw * 2 := rfl

theorem max_double_ge (X m : ℝ) : m * 2 ≤ max X m * 2 := by
  nlinarith [le_max_right X m]

theorem clampFinish_height_ge (hiW hiH cosT sinT mhh hw hh : ℝ) :
    mhh * 2 ≤ (clampFinish hiW hiH cosT sinT mhh hw hh).height := by
  simp only [clampFinish]
  exact max_double_ge _ _

theorem branch_width_ge (hiW hiH cosT sinT mhh mhw hw0 hhA hh0 : ℝ) (M : Option ℝ)
    (hw0ge : mhw ≤ hw0) :
    mhw * 2 ≤ (if belowOpt M mhw then clampFinish hiW hiH cosT sinT mhh mhw hhA
               else clampFinish hiW hiH cosT sinT mhh (capOpt hw0 M) hh0).width := by
  split
  · rw [clampFinish_width]
  · rename_i h
    rw [clampFinish_width]
    have := le_capOpt hw0 mhw M hw0ge (by rwa [Bool.not_eq_true] at h)
    linarith

theorem branch_height_ge (hiW hiH cosT sinT mhh mhw hw0 hhA hh0 : ℝ) (M : Option ℝ) :
    mhh * 2 ≤ (if belowOpt M mhw then clampFinish hiW hiH cosT sinT mhh mhw hhA
               else clampFinish hiW hiH cosT sinT mhh (capOpt hw0 M) hh0).height := by
  split <;> exact clampFinish_height_ge _ _ _ _ _ _ _

/-! ## Claim theorems: computeCropSize -/

/-- C3 counterexample: the rotation 1e-8 degrees is nonzero, yet its radian
measure is below the 1e-9 epsilon, so computeCropSize returns the image size
unchanged and the claimed strict width shrink fails. -/
theorem computeCropSize_tiny_angle_counterexample :
    (1e-8 : ℝ) ≠ 0 ∧ (0 : ℝ) < 100 ∧ (0 : ℝ) < 50 ∧
    ¬ (computeCropSize 100 50 1e-8).width < 100 := by
  refine ⟨by norm_num, by norm_num, by norm_num, ?_⟩
  have habs : |(1e-8 : ℝ)| = 1e-8 := abs_of_pos (by norm_num)
  have hcond : |(1e-8 : ℝ)| * (Real.pi / 180) < EPS := by
    rw [habs]
    have hpi := Real.pi_lt_d2
    rw [show (EPS : ℝ) = 1e-9 from rfl]
    nlinarith
  have heval : computeCropSize 100 50 1e-8 = ⟨100, 50⟩ := by
    simp only [computeCropSize]
    rw [if_neg (by norm_num), if_pos hcond]
  rw [heval]
  norm_num

/-- C3 amended: for rotations whose radian measure is at least the 1e-9
epsilon (so the nonzero branch runs) and within the 45-degree fine-rotation
domain, computeCropSize strictly shrinks the width, does not grow the
height, and shrinks both dimensions whenever the image is not square. -/
theorem computeCropSize_shrinks (W H rotationDeg : ℝ) (hW : 0 < W) (hH : 0 < H)
    (hθ1 : EPS ≤ |rotationDeg| * (Real.pi / 180)) (hθ2 : |rotationDeg| ≤ 45) :
    (computeCropSize W H rotationDeg).width < W ∧
    (computeCropSize W H rotationDeg).height ≤ H ∧
    (W ≠ H →
      (computeCropSize W H rotationDeg).width < W ∧
      (computeCropSize W H rotationDeg).height < H) := by
  set θ := |rotationDeg| * (Real.pi / 180) with hθdef
  have hθpos : 0 < θ := lt_of_lt_of_le EPS_pos hθ1
  have hπ : (0 : ℝ) < Real.pi := Real.pi_pos
  have hθle : θ ≤ Real.pi / 4 := by
    have h45 : (45 : ℝ) * (Real.pi / 180) = Real.pi / 4 := by ring
    have := mul_le_mul_of_nonneg_right hθ2 (le_of_lt (by positivity : (0:ℝ) < Real.pi / 180))
    rw [h45] at this
    exact this
  have hs : 0 < Real.sin θ :=
    Real.sin_pos_of_pos_of_lt_pi hθpos (by linarith)
  have hc : 0 < Real.cos θ :=
    Real.cos_pos_of_mem_Ioo ⟨by linarith, by linarith⟩
  have hc1 : Real.cos θ < 1 := by
    nlinarith [Real.sin_sq_add_cos_sq θ, mul_pos hs hs, Real.cos_le_one θ]
  have hd1 : 0 < W * Real.cos θ + H * Real.sin θ := by positivity
  have hd2 : 0 < W * Real.sin θ + H * Real.cos θ := by positivity
  have heval : computeCropSize W H rotationDeg =
      ⟨min (W / (W * Real.cos θ + H * Real.sin θ)) (H / (W * Real.sin θ + H * Real.cos θ)) * W,
       min (W / (W * Real.cos θ + H * Real.sin θ)) (H / (W * Real.sin θ + H * Real.cos θ)) * H⟩ := by
    simp only [computeCropSize, ← hθdef]
    rw [if_neg (by push_neg; exact ⟨ne_of_gt hW, ne_of_gt hH⟩), if_neg (not_lt.mpr hθ1)]
  have hslt : min (W / (W * Real.cos θ + H * Real.sin θ))
      (H / (W * Real.sin θ + H * Real.cos θ)) < 1 := by
    rcases lt_or_le W (W * Real.cos θ + H * Real.sin θ) with hcase | hcase
    · exact lt_of_le_of_lt (min_le_left _ _) ((div_lt_one hd1).mpr hcase)
    · refine lt_of_le_of_lt (min_le_right _ _) ((div_lt_one hd2).mpr ?_)
      by_contra hcon
      push_neg at hcon
      have k1 : H * Real.sin θ ≤ W * (1 - Real.cos θ) := by nlinarith
      have k2 : W * Real.sin θ ≤ H * (1 - Real.cos θ) := by nlinarith
      have kprod : (H * Real.sin θ) * (W * Real.sin θ) ≤
          (W * (1 - Real.cos θ)) * (H * (1 - Real.cos θ)) :=
        mul_le_mul k1 k2 (by positivity) (by nlinarith)
      nlinarith [Real.sin_sq_add_cos_sq θ, mul_pos hW hH,
        mul_pos (mul_pos (mul_pos hW hH) hc) (sub_pos.mpr hc1)]
  rw [heval]
  have hwidth : min (W / (W * Real.cos θ + H * Real.sin θ))
      (H / (W * Real.sin θ + H * Real.cos θ)) * W < W := by
    nlinarith
  have hheight : min (W / (W * Real.cos θ + H * Real.sin θ))
      (H / (W * Real.sin θ + H * Real.cos θ)) * H < H := by
    nlinarith
  exact ⟨hwidth, le_of_lt hheight, fun _ => ⟨hwidth, hheight⟩⟩

/-- Witness for the amended C3 at the spec scenario 800 by 600 at 30
degrees. -/
theorem computeCropSize_shrinks_witness :
    (0 : ℝ) < 800 ∧ (0 : ℝ) < 600 ∧ EPS ≤ |(30 : ℝ)| * (Real.pi / 180) ∧
    |(30 : ℝ)| ≤ 45 ∧
    ((computeCropSize 800 600 30).width < 800 ∧
     (computeCropSize 800 600 30).height ≤ 600 ∧
     ((800 : ℝ) ≠ 600 →
       (computeCropSize 800 600 30).width < 800 ∧
       (computeCropSize 800 600 30).height < 600)) := by
  have h1 : (0 : ℝ) < 800 := by norm_num
  have h2 : (0 : ℝ) < 600 := by norm_num
  have h3 : EPS ≤ |(30 : ℝ)| * (Real.pi / 180) := by
    rw [abs_of_pos (by norm_num : (0:ℝ) < 30), show (EPS : ℝ) = 1e-9 from rfl]
    nlinarith [Real.pi_gt_three]
  have h4 : |(30 : ℝ)| ≤ 45 := by
    rw [abs_of_pos (by norm_num : (0:ℝ) < 30)]; norm_num
  exact ⟨h1, h2, h3, h4, computeCropSize_shrinks 800 600 30 h1 h2 h3 h4⟩

/-! ## Claim theorems: clampCropDims branch behaviour -/

/-- C9: in the zero-rotation branch the result is capped at the image
dimensions even below the minimums, so an image smaller than the minimum
yields exactly the image dimension, strictly below the minimum; in the
nonzero-rotation branch the result always respects both minimums. -/
theorem clampCropDims_zero_caps_nonzero_min :
    (∀ cW cH iW iH r mW mH : ℝ, |r| * (Real.pi / 180) < EPS →
       (iW < mW → (clampCropDims cW cH iW iH r mW mH).width = iW) ∧
       (iH < mH → (clampCropDims cW cH iW iH r mW mH).height = iH)) ∧
    (∀ cW cH iW iH r mW mH : ℝ, EPS ≤ |r| * (Real.pi / 180) →
       mW ≤ (clampCropDims cW cH iW iH r mW mH).width ∧
       mH ≤ (clampCropDims cW cH iW iH r mW mH).height) := by
  constructor
  · intro cW cH iW iH r mW mH hzero
    have heval : clampCropDims cW cH iW iH r mW mH =
        ⟨min (max (cW / 2) (mW / 2)) (iW / 2) * 2,
         min (max (cH / 2) (mH / 2)) (iH / 2) * 2⟩ := by
      simp only [clampCropDims]
      rw [if_pos hzero]
    rw [heval]
    constructor
    · intro hlt
      have h1 : iW / 2 ≤ max (cW / 2) (mW / 2) :=
        le_trans (by linarith) (le_max_right _ _)
      rw [min_eq_right h1]
      ring
    · intro hlt
      have h1 : iH / 2 ≤ max (cH / 2) (mH / 2) :=
        le_trans (by linarith) (le_max_right _ _)
      rw [min_eq_right h1]
      ring
  · intro cW cH iW iH r mW mH hnz
    have hif : ¬(|r| * (Real.pi / 180) < EPS) := not_lt.mpr hnz
    simp only [clampCropDims]
    rw [if_neg hif]
    exact ⟨le_trans (show mW ≤ mW / 2 * 2 by linarith)
        (branch_width_ge _ _ _ _ _ _ _ _ _ _ (le_max_right _ _)),
      le_trans (show mH ≤ mH / 2 * 2 by linarith)
        (branch_height_ge _ _ _ _ _ _ _ _ _ _)⟩

/-- Witness for C9: at zero rotation with a 10 by 10 image and 80 by 80
minimums the result equals the image size; at 90 degrees the minimums are
respected. -/
theorem clampCropDims_zero_caps_nonzero_min_witness :
    (clampCropDims 50 50 10 10 0 80 80).width = 10 ∧
    (clampCropDims 50 50 10 10 0 80 80).height = 10 ∧
    (80 : ℝ) ≤ (clampCropDims 50 50 200 200 90 80 80).width ∧
    (80 : ℝ) ≤ (clampCropDims 50 50 200 200 90 80 80).height := by
  have hz : |(0 : ℝ)| * (Real.pi / 180) < EPS := by
    rw [abs_zero, zero_mul]; exact EPS_pos
  have h1 := clampCropDims_zero_caps_nonzero_min.1 50 50 10 10 0 80 80 hz
  have hnz : EPS ≤ |(90 : ℝ)| * (Real.pi / 180) := by
    rw [abs_of_pos (by norm_num : (0 : ℝ) < 90), show (EPS : ℝ) = 1e-9 from rfl]
    nlinarith [Real.pi_gt_three]
  have h2 := clampCropDims_zero_caps_nonzero_min.2 50 50 200 200 90 80 80 hnz
  exact ⟨h1.1 (by norm_num), h1.2 (by norm_num), h2.1, h2.2⟩

/-! ## Claim theorems: clampCropDims feasibility -/

theorem containedCentered_iff (imgW imgH rotationDeg w h : ℝ)
    (hw : 0 ≤ w) (hh : 0 ≤ h)
    (hc : 0 ≤ Real.cos (|rotationDeg| * (Real.pi / 180)))
    (hs : 0 ≤ Real.sin (|rotationDeg| * (Real.pi / 180))) :
    containedCentered imgW imgH rotationDeg w h ↔
      (w / 2 * Real.cos (|rotationDeg| * (Real.pi / 180)) +
         h / 2 * Real.sin (|rotationDeg| * (Real.pi / 180)) ≤ imgW / 2 ∧
       w / 2 * Real.sin (|rotationDeg| * (Real.pi / 180)) +
         h / 2 * Real.cos (|rotationDeg| * (Real.pi / 180)) ≤ imgH / 2) := by
  set c := Real.cos (|rotationDeg| * (Real.pi / 180)) with hcdef
  set s := Real.sin (|rotationDeg| * (Real.pi / 180)) with hsdef
  have hac : 0 ≤ w / 2 * c := mul_nonneg (by linarith) hc
  have hbs : 0 ≤ h / 2 * s := mul_nonneg (by linarith) hs
  have has2 : 0 ≤ w / 2 * s := mul_nonneg (by linarith) hs
  have hbc : 0 ≤ h / 2 * c := mul_nonneg (by linarith) hc
  simp only [containedCentered, ← hcdef, ← hsdef]
  constructor
  · rintro ⟨h1, h2, h3, h4⟩
    refine ⟨le_trans (le_abs_self _) h4.1, ?_⟩
    have h32 := h3.2
    rw [neg_neg] at h32
    exact le_trans (le_abs_self _) h32
  · rintro ⟨h1, h2⟩
    refine ⟨⟨?_, ?_⟩, ⟨?_, ?_⟩, ⟨?_, ?_⟩, ⟨?_, ?_⟩⟩ <;> rw [abs_le] <;>
      exact ⟨by nlinarith, by nlinarith⟩

theorem clampCropDims_nz_eval (cropW cropH imgW imgH rotationDeg minW minH : ℝ)
    (hnb : ¬(|rotationDeg| * (Real.pi / 180) < EPS))
    (hgc : EPS < Real.cos (|rotationDeg| * (Real.pi / 180)))
    (hgs : EPS < Real.sin (|rotationDeg| * (Real.pi / 180))) :
    clampCropDims cropW cropH imgW imgH rotationDeg minW minH =
      clampNZ (imgW / 2) (imgH / 2) (Real.cos (|rotationDeg| * (Real.pi / 180)))
        (Real.sin (|rotationDeg| * (Real.pi / 180))) (minW / 2) (minH / 2)
        (max (cropW / 2) (minW / 2)) (max (cropH / 2) (minH / 2)) := by
  simp only [clampCropDims, clampNZ, clampFinish, if_neg hnb, if_pos hgc, if_pos hgs,
    updMin, belowOpt, decide_eq_true_eq, capOpt]

theorem clampNZ_bounds (hiW hiH c s mhw mhh hw0 hh0 : ℝ)
    (hcpos : 0 < c) (hspos : 0 < s)
    (hw0ge : mhw ≤ hw0) (hh0ge : mhh ≤ hh0)
    (hfu : mhw * c + mhh * s ≤ hiW) (hfv : mhw * s + mhh * c ≤ hiH) :
    mhw ≤ (clampNZ hiW hiH c s mhw mhh hw0 hh0).width / 2 ∧
    mhh ≤ (clampNZ hiW hiH c s mhw mhh hw0 hh0).height / 2 ∧
    (clampNZ hiW hiH c s mhw mhh hw0 hh0).width / 2 * c +
      (clampNZ hiW hiH c s mhw mhh hw0 hh0).height / 2 * s ≤ hiW ∧
    (clampNZ hiW hiH c s mhw mhh hw0 hh0).width / 2 * s +
      (clampNZ hiW hiH c s mhw mhh hw0 hh0).height / 2 * c ≤ hiH := by
  have hZ1ge : mhh ≤ (hiW - mhw * c) / s := (le_div_iff₀ hspos).mpr (by nlinarith)
  have hZ2ge : mhh ≤ (hiH - mhw * s) / c := (le_div_iff₀ hcpos).mpr (by nlinarith)
  simp only [clampNZ]
  split_ifs with hfail
  · dsimp only
    set Z1 := (hiW - mhw * c) / s with hZ1d
    set Z2 := (hiH - mhw * s) / c with hZ2d
    set hh1 := max (min hh0 (min Z1 Z2)) mhh with hh1d
    set hhF := max (min hh1 (min Z1 Z2)) mhh with hhFd
    have h1 : hhF ≤ Z1 := max_le (le_trans (min_le_right _ _) (min_le_left _ _)) hZ1ge
    have h2 : hhF ≤ Z2 := max_le (le_trans (min_le_right _ _) (min_le_right _ _)) hZ2ge
    have h3 : mhh ≤ hhF := le_max_right _ _
    have hu : hhF * s ≤ hiW - mhw * c := (le_div_iff₀ hspos).mp h1
    have hv : hhF * c ≤ hiH - mhw * s := (le_div_iff₀ hcpos).mp h2
    refine ⟨by linarith, by linarith, by linarith, by linarith⟩
  · push_neg at hfail
    dsimp only
    set X1 := (hiW - hh0 * s) / c with hX1d
    set X2 := (hiH - hh0 * c) / s with hX2d
    set hw1 := min hw0 (min X1 X2) with hw1d
    have hw1ge : mhw ≤ hw1 := le_min hw0ge hfail
    have hw1u : hw1 * c ≤ hiW - hh0 * s :=
      (le_div_iff₀ hcpos).mp (le_trans (min_le_right _ _) (min_le_left _ _))
    have hw1v : hw1 * s ≤ hiH - hh0 * c :=
      (le_div_iff₀ hspos).mp (le_trans (min_le_right _ _) (min_le_right _ _))
    set Y1 := (hiW - hw1 * c) / s with hY1d
    set Y2 := (hiH - hw1 * s) / c with hY2d
    set hhF := max (min hh0 (min Y1 Y2)) mhh with hhFd
    have hhFge : mhh ≤ hhF := le_max_right _ _
    have hu : hw1 * c + hhF * s ≤ hiW := by
      rcases le_total (min hh0 (min Y1 Y2)) mhh with hcm | hcm
      · rw [hhFd, max_eq_right hcm]
        have hms : mhh * s ≤ hh0 * s := mul_le_mul_of_nonneg_right hh0ge hspos.le
        linarith
      · rw [hhFd, max_eq_left hcm]
        have hY : min hh0 (min Y1 Y2) ≤ Y1 := le_trans (min_le_right _ _) (min_le_left _ _)
        have := (le_div_iff₀ hspos).mp hY
        linarith
    have hv : hw1 * s + hhF * c ≤ hiH := by
      rcases le_total (min hh0 (min Y1 Y2)) mhh with hcm | hcm
      · rw [hhFd, max_eq_right hcm]
        have hmc : mhh * c ≤ hh0 * c := mul_le_mul_of_nonneg_right hh0ge hcpos.le
        linarith
      · rw [hhFd, max_eq_left hcm]
        have hY : min hh0 (min Y1 Y2) ≤ Y2 := le_trans (min_le_right _ _) (min_le_right _ _)
        have := (le_div_iff₀ hcpos).mp hY
        linarith
    refine ⟨by linarith, by linarith, by linarith, by linarith⟩

/-- C1 counterexample: at rotation 180 degrees both trigonometric guards are
inactive, so clampCropDims leaves an oversized request unclamped: the
2 by 2 minimum is feasible for the 100 by 100 image, yet the returned
200 by 200 crop violates containment. -/
theorem clampCropDims_rot180_counterexample :
    containedCentered 100 100 180 2 2 ∧
    ¬ containedCentered 100 100 180
        (clampCropDims 200 200 100 100 180 2 2).width
        (clampCropDims 200 200 100 100 180 2 2).height := by
  have habs : |(180 : ℝ)| = 180 := abs_of_pos (by norm_num)
  have hθ : |(180 : ℝ)| * (Real.pi / 180) = Real.pi := by
    rw [habs]; ring
  have hcos : Real.cos (|(180 : ℝ)| * (Real.pi / 180)) = -1 := by
    rw [hθ, Real.cos_pi]
  have hsin : Real.sin (|(180 : ℝ)| * (Real.pi / 180)) = 0 := by
    rw [hθ, Real.sin_pi]
  have hnb : ¬(|(180 : ℝ)| * (Real.pi / 180) < EPS) := by
    rw [hθ, show (EPS : ℝ) = 1e-9 from rfl]
    push_neg
    nlinarith [Real.pi_gt_three]
  have hgc : ¬(EPS < Real.cos (|(180 : ℝ)| * (Real.pi / 180))) := by
    rw [hcos, show (EPS : ℝ) = 1e-9 from rfl]; norm_num
  have hgs : ¬(EPS < Real.sin (|(180 : ℝ)| * (Real.pi / 180))) := by
    rw [hsin, show (EPS : ℝ) = 1e-9 from rfl]; norm_num
  have heval : clampCropDims 200 200 100 100 180 2 2 = ⟨200, 200⟩ := by
    simp only [clampCropDims, clampFinish]
    rw [if_neg hnb]
    simp only [if_neg hgc, if_neg hgs, belowOpt, capOpt]
    norm_num
  constructor
  · simp only [containedCentered, hcos, hsin]
    norm_num
  · rw [heval]
    simp only [containedCentered, hcos, hsin]
    intro hcon
    have := hcon.2.2.2.1
    norm_num at this

/-- C1 amended: whenever the minimums are nonnegative, both trigonometric
branch guards are active (cosine and sine of the effective angle both exceed
the 1e-9 epsilon), and a centered crop of exactly the minimum size satisfies
containment, clampCropDims returns a size meeting both minimums whose
centered crop satisfies containment. -/
theorem clampCropDims_min_feasible (cropW cropH imgW imgH rotationDeg minW minH : ℝ)
    (hmW : 0 ≤ minW) (hmH : 0 ≤ minH)
    (hgc : EPS < Real.cos (|rotationDeg| * (Real.pi / 180)))
    (hgs : EPS < Real.sin (|rotationDeg| * (Real.pi / 180)))
    (hfeas : containedCentered imgW imgH rotationDeg minW minH) :
    minW ≤ (clampCropDims cropW cropH imgW imgH rotationDeg minW minH).width ∧
    minH ≤ (clampCropDims cropW cropH imgW imgH rotationDeg minW minH).height ∧
    containedCentered imgW imgH rotationDeg
      (clampCropDims cropW cropH imgW imgH rotationDeg minW minH).width
      (clampCropDims cropW cropH imgW imgH rotationDeg minW minH).height := by
  have hθnn : 0 ≤ |rotationDeg| * (Real.pi / 180) :=
    mul_nonneg (abs_nonneg _) (by positivity)
  have hcpos : 0 < Real.cos (|rotationDeg| * (Real.pi / 180)) := lt_trans EPS_pos hgc
  have hspos : 0 < Real.sin (|rotationDeg| * (Real.pi / 180)) := lt_trans EPS_pos hgs
  have hnb : ¬(|rotationDeg| * (Real.pi / 180) < EPS) := by
    intro hlt
    rcases eq_or_lt_of_le hθnn with h0 | h0
    · rw [← h0, Real.sin_zero] at hspos
      exact lt_irrefl _ hspos
    · have hslt := Real.sin_lt h0
      linarith [hgs]
  have hfeas2 := (containedCentered_iff imgW imgH rotationDeg minW minH hmW hmH
    hcpos.le hspos.le).mp hfeas
  have heval := clampCropDims_nz_eval cropW cropH imgW imgH rotationDeg minW minH hnb hgc hgs
  rw [heval]
  have hbounds := clampNZ_bounds (imgW / 2) (imgH / 2)
    (Real.cos (|rotationDeg| * (Real.pi / 180))) (Real.sin (|rotationDeg| * (Real.pi / 180)))
    (minW / 2) (minH / 2) (max (cropW / 2) (minW / 2)) (max (cropH / 2) (minH / 2))
    hcpos hspos (le_max_right _ _) (le_max_right _ _) hfeas2.1 hfeas2.2
  obtain ⟨hbw, hbh, hbu, hbv⟩ := hbounds
  refine ⟨by linarith, by linarith, ?_⟩
  rw [containedCentered_iff imgW imgH rotationDeg _ _ (by linarith) (by linarith)
    hcpos.le hspos.le]
  exact ⟨hbu, hbv⟩

/-- Witness for the amended C1 at 45 degrees with a 200 by 200 image and
80 by 80 minimums. -/
theorem clampCropDims_min_feasible_witness :
    (0 : ℝ) ≤ 80 ∧
    EPS < Real.cos (|(45 : ℝ)| * (Real.pi / 180)) ∧
    EPS < Real.sin (|(45 : ℝ)| * (Real.pi / 180)) ∧
    containedCentered 200 200 45 80 80 ∧
    ((80 : ℝ) ≤ (clampCropDims 120 120 200 200 45 80 80).width ∧
     (80 : ℝ) ≤ (clampCropDims 120 120 200 200 45 80 80).height ∧
     containedCentered 200 200 45 (clampCropDims 120 120 200 200 45 80 80).width
       (clampCropDims 120 120 200 200 45 80 80).height) := by
  have hang : |(45 : ℝ)| * (Real.pi / 180) = Real.pi / 4 := by
    rw [abs_of_pos (by norm_num : (0 : ℝ) < 45)]; ring
  have hsq : Real.sqrt 2 * Real.sqrt 2 = 2 := Real.mul_self_sqrt (by norm_num)
  have hsqnn : (0 : ℝ) ≤ Real.sqrt 2 := Real.sqrt_nonneg 2
  have hsqrt1 : (1 : ℝ) ≤ Real.sqrt 2 := by nlinarith
  have hsqrt2 : Real.sqrt 2 ≤ (3 : ℝ) / 2 := by nlinarith
  have hgc : EPS < Real.cos (|(45 : ℝ)| * (Real.pi / 180)) := by
    rw [hang, Real.cos_pi_div_four, show (EPS : ℝ) = 1e-9 from rfl]
    nlinarith
  have hgs : EPS < Real.sin (|(45 : ℝ)| * (Real.pi / 180)) := by
    rw [hang, Real.sin_pi_div_four, show (EPS : ℝ) = 1e-9 from rfl]
    nlinarith
  have hfeas : containedCentered 200 200 45 80 80 := by
    rw [containedCentered_iff 200 200 45 80 80 (by norm_num) (by norm_num)
      (le_of_lt (lt_trans EPS_pos hgc)) (le_of_lt (lt_trans EPS_pos hgs))]
    rw [hang, Real.cos_pi_div_four, Real.sin_pi_div_four]
    constructor <;> nlinarith
  exact ⟨by norm_num, hgc, hgs, hfeas,
    clampCropDims_min_feasible 120 120 200 200 45 80 80 (by norm_num) (by norm_num)
      hgc hgs hfeas⟩

/-! ## Claim theorems: findMaxRotation -/

theorem fmrStep_cases (imgW imgH : ℝ) (cc : Option Size) (minW minH : ℝ) (s : ℝ × ℝ) :
    fmrStep imgW imgH cc minW minH s = ((s.1 + s.2) / 2, s.2) ∨
    fmrStep imgW imgH cc minW minH s = (s.1, (s.1 + s.2) / 2) := by
  cases cc with
  | none =>
      simp only [fmrStep]
      split_ifs with h
      · exact Or.inl rfl
      · exact Or.inr rfl
  | some cc0 =>
      simp only [fmrStep]
      split_ifs with h
      · exact Or.inl rfl
      · exact Or.inr rfl

theorem fmrStep_none (imgW imgH minW minH : ℝ) (s : ℝ × ℝ) :
    fmrStep imgW imgH none minW minH s =
      if minW ≤ (computeCropSize imgW imgH ((s.1 + s.2) / 2)).width ∧
         minH ≤ (computeCropSize imgW imgH ((s.1 + s.2) / 2)).height
      then ((s.1 + s.2) / 2, s.2) else (s.1, (s.1 + s.2) / 2) := rfl

theorem fmr_iter_bounds (imgW imgH : ℝ) (cc : Option Size) (minW minH : ℝ) :
    ∀ n : ℕ, 0 ≤ ((fmrStep imgW imgH cc minW minH)^[n] (0, 45)).1 ∧
      ((fmrStep imgW imgH cc minW minH)^[n] (0, 45)).1 ≤
        ((fmrStep imgW imgH cc minW minH)^[n] (0, 45)).2 ∧
      ((fmrStep imgW imgH cc minW minH)^[n] (0, 45)).2 ≤ 45 := by
  intro n
  induction n with
  | zero => norm_num
  | succ k ih =>
      obtain ⟨h1, h2, h3⟩ := ih
      rw [Function.iterate_succ_apply']
      rcases fmrStep_cases imgW imgH cc minW minH
          ((fmrStep imgW imgH cc minW minH)^[k] (0, 45)) with hc | hc <;> rw [hc]
      · exact ⟨by dsimp only; linarith, by dsimp only; linarith, by dsimp only; linarith⟩
      · exact ⟨by dsimp only; linarith, by dsimp only; linarith, by dsimp only; linarith⟩

theorem jsRound_mono {x y : ℝ} (h : x ≤ y) : jsRound x ≤ jsRound y := by
  unfold jsRound
  exact_mod_cast Int.floor_le_floor (by linarith)

theorem jsRound_nonneg {x : ℝ} (h : 0 ≤ x) : 0 ≤ jsRound x := by
  unfold jsRound
  exact_mod_cast Int.floor_nonneg.mpr (by linarith)

theorem jsRound_le {x : ℝ} {z : ℤ} (h : x + 1 / 2 < z + 1) : jsRound x ≤ (z : ℝ) := by
  unfold jsRound
  exact_mod_cast Int.floor_le_iff.mpr (by linarith)

theorem fmr_mono_inv (imgW imgH minW minH minW2 minH2 : ℝ)
    (hW : minW ≤ minW2) (hH : minH ≤ minH2) :
    ∀ n : ℕ,
      ((fmrStep imgW imgH none minW2 minH2)^[n] (0, 45)).2
        = ((fmrStep imgW imgH none minW2 minH2)^[n] (0, 45)).1 + 45 / 2 ^ n ∧
      ((fmrStep imgW imgH none minW minH)^[n] (0, 45)).2
        = ((fmrStep imgW imgH none minW minH)^[n] (0, 45)).1 + 45 / 2 ^ n ∧
      (((fmrStep imgW imgH none minW2 minH2)^[n] (0, 45)).1
         = ((fmrStep imgW imgH none minW minH)^[n] (0, 45)).1 ∨
       ((fmrStep imgW imgH none minW2 minH2)^[n] (0, 45)).1 + 45 / 2 ^ n
         ≤ ((fmrStep imgW imgH none minW minH)^[n] (0, 45)).1) := by
  intro n
  induction n with
  | zero => norm_num
  | succ k ih =>
      obtain ⟨ihQ, ihP, ihD⟩ := ih
      set sQ := (fmrStep imgW imgH none minW2 minH2)^[k] (0, 45) with hsQ
      set sP := (fmrStep imgW imgH none minW minH)^[k] (0, 45) with hsP
      have hw : (0 : ℝ) < 45 / 2 ^ k := by positivity
      have hw2 : (45 : ℝ) / 2 ^ (k + 1) = 45 / 2 ^ k / 2 := by
        rw [pow_succ]; ring
      have hmidQ : (sQ.1 + sQ.2) / 2 = sQ.1 + 45 / 2 ^ k / 2 := by
        rw [ihQ]; ring
      have hmidP : (sP.1 + sP.2) / 2 = sP.1 + 45 / 2 ^ k / 2 := by
        rw [ihP]; ring
      rw [Function.iterate_succ_apply', Function.iterate_succ_apply', ← hsQ, ← hsP,
        fmrStep_none, fmrStep_none]
      by_cases hq : minW2 ≤ (computeCropSize imgW imgH ((sQ.1 + sQ.2) / 2)).width ∧
          minH2 ≤ (computeCropSize imgW imgH ((sQ.1 + sQ.2) / 2)).height
      · rw [if_pos hq]
        by_cases hp : minW ≤ (computeCropSize imgW imgH ((sP.1 + sP.2) / 2)).width ∧
            minH ≤ (computeCropSize imgW imgH ((sP.1 + sP.2) / 2)).height
        · rw [if_pos hp]
          refine ⟨by dsimp only; linarith [ihQ, hw2], by dsimp only; linarith [ihP, hw2], ?_⟩
          dsimp only
          rcases ihD with hEq | hGap
          · exact Or.inl (by linarith [ihQ, ihP, hEq])
          · exact Or.inr (by linarith [ihQ, ihP, hw2, hGap])
        · rw [if_neg hp]
          rcases ihD with hEq | hGap
          · exfalso
            have hmideq : (sQ.1 + sQ.2) / 2 = (sP.1 + sP.2) / 2 := by
              linarith [ihQ, ihP, hEq]
            rw [hmideq] at hq
            exact hp ⟨le_trans hW hq.1, le_trans hH hq.2⟩
          · refine ⟨by dsimp only; linarith [ihQ, hw2], by dsimp only; linarith [hw2], ?_⟩
            dsimp only
            exact Or.inr (by linarith [ihQ, hw2, hGap])
      · rw [if_neg hq]
        by_cases hp : minW ≤ (computeCropSize imgW imgH ((sP.1 + sP.2) / 2)).width ∧
            minH ≤ (computeCropSize imgW imgH ((sP.1 + sP.2) / 2)).height
        · rw [if_pos hp]
          refine ⟨by dsimp only; linarith [hw2], by dsimp only; linarith [ihP, hw2], ?_⟩
          dsimp only
          rcases ihD with hEq | hGap
          · exact Or.inr (by linarith [ihQ, ihP, hw2, hEq])
          · exact Or.inr (by linarith [ihQ, ihP, hw2, hGap, hw])
        · rw [if_neg hp]
          refine ⟨by dsimp only; linarith [hw2], by dsimp only; linarith [hw2], ?_⟩
          dsimp only
          rcases ihD with hEq | hGap
          · exact Or.inl hEq
          · exact Or.inr (by linarith [hw2, hGap])

/-- C2: findMaxRotation always returns a value between 0 and 45; and with no
custom crop, the result is monotonically non-increasing as either minimum
dimension increases. -/
theorem findMaxRotation_range_and_mono :
    (∀ (imgW imgH : ℝ) (cc : Option Size) (minW minH : ℝ),
        0 ≤ findMaxRotation imgW imgH cc minW minH ∧
        findMaxRotation imgW imgH cc minW minH ≤ 45) ∧
    (∀ imgW imgH minW minH minW2 minH2 : ℝ, minW ≤ minW2 → minH ≤ minH2 →
        findMaxRotation imgW imgH none minW2 minH2 ≤
          findMaxRotation imgW imgH none minW minH) := by
  constructor
  · intro imgW imgH cc minW minH
    obtain ⟨h1, h2, h3⟩ := fmr_iter_bounds imgW imgH cc minW minH 50
    simp only [findMaxRotation]
    constructor
    · have := jsRound_nonneg
        (x := ((fmrStep imgW imgH cc minW minH)^[50] (0, 45)).1 * 10) (by linarith)
      linarith
    · have hub := jsRound_le
        (x := ((fmrStep imgW imgH cc minW minH)^[50] (0, 45)).1 * 10) (z := 450)
        (by push_cast; linarith)
      have : ((450 : ℤ) : ℝ) = 450 := by norm_num
      linarith [hub, this.ge]
  · intro imgW imgH minW minH minW2 minH2 hW hH
    obtain ⟨iQ, iP, iD⟩ := fmr_mono_inv imgW imgH minW minH minW2 minH2 hW hH 50
    have hlo : ((fmrStep imgW imgH none minW2 minH2)^[50] (0, 45)).1 ≤
        ((fmrStep imgW imgH none minW minH)^[50] (0, 45)).1 := by
      rcases iD with hEq | hGap
      · exact le_of_eq hEq
      · have : (0 : ℝ) < 45 / 2 ^ 50 := by positivity
        linarith
    simp only [findMaxRotation]
    have := jsRound_mono (x := ((fmrStep imgW imgH none minW2 minH2)^[50] (0, 45)).1 * 10)
      (y := ((fmrStep imgW imgH none minW minH)^[50] (0, 45)).1 * 10) (by linarith)
    linarith

/-- Witness for C2 at the spec scenario. -/
theorem findMaxRotation_range_and_mono_witness :
    (0 ≤ findMaxRotation 500 400 none 50 50 ∧ findMaxRotation 500 400 none 50 50 ≤ 45) ∧
    findMaxRotation 500 400 none 60 50 ≤ findMaxRotation 500 400 none 50 50 :=
  ⟨findMaxRotation_range_and_mono.1 500 400 none 50 50,
   findMaxRotation_range_and_mono.2 500 400 50 50 60 50 (by norm_num) (by norm_num)⟩

end Cropper
